import Mathlib

/-!
Shallow embedding of `src/sentence_corrector.py` (RuCode-SentenceCorrection).

Python dicts are modelled as insertion-ordered association lists
`List (String × Nat)` with unique keys; `d[k] = v` updates in place when the
key is present and appends otherwise, matching CPython dict semantics.
The external `Levenshtein.distance` library call is modelled by the classic
unit-cost Levenshtein recurrence.  Python's `str.lower` is modelled on the
scripts the program works with (ASCII and Cyrillic).
-/

namespace SentenceCorrection

/-- The whitespace class used by Python's `str.split()` / `str.strip()`
(restricted to the ASCII whitespace characters). -/
def isSpace (c : Char) : Bool :=
  c = ' ' || c = '\t' || c = '\n' || c = '\r' || c = '\x0b' || c = '\x0c'

/-- Model of Python `str.lower` per character, covering ASCII Latin and
Cyrillic (the corrector's working alphabet). -/
def lowerChar (c : Char) : Char :=
  if 'A' ≤ c ∧ c ≤ 'Z' then Char.ofNat (c.toNat + 32)
  else if 'А' ≤ c ∧ c ≤ 'Я' then Char.ofNat (c.toNat + 32)
  else if c = 'Ё' then 'ё'
  else c

/-- The individually listed characters of the regex character class
`[1234567890qwertyuiopasdfghjklzxcvbnm!@#$--,.?¬\]\[\'\"]`
(lines 49 and 109): digits, the 26 Latin letters in keyboard order, and the
listed punctuation.  The `$--` fragment is a range and is kept separate in
`isNoise`. -/
def noiseChars : List Char :=
  ['1', '2', '3', '4', '5', '6', '7', '8', '9', '0',
   'q', 'w', 'e', 'r', 't', 'y', 'u', 'i', 'o', 'p',
   'a', 's', 'd', 'f', 'g', 'h', 'j', 'k', 'l',
   'z', 'x', 'c', 'v', 'b', 'n', 'm',
   '!', '@', '#', ',', '.', '?', '¬', ']', '[', '\'', '\"']

/-- Membership in the regex character class of lines 49 / 109: the listed
characters plus the range `$--` (codepoints of `$` through `-`). -/
def isNoise (c : Char) : Bool :=
  decide (c ∈ noiseChars ∨ ('$' ≤ c ∧ c ≤ '-'))

/-- Accumulator-based splitting on whitespace runs, discarding empty
fragments (Python `str.split()` with no argument). -/
def splitAux : List Char → List Char → List String
  | [], [] => []
  | [], acc => [String.mk acc.reverse]
  | c :: cs, acc =>
    if isSpace c then
      (if acc.isEmpty then splitAux cs [] else String.mk acc.reverse :: splitAux cs [])
    else splitAux cs (c :: acc)

/-- Python `s.split()`. -/
def pySplit (cs : List Char) : List String := splitAux cs []

/-- The tokenization of lines 49-50 and 109-110:
`re.sub('[...]', ' ', s.lower()).split()`. -/
def tokenize (s : String) : List String :=
  pySplit ((s.data.map lowerChar).map (fun c => if isNoise c then ' ' else c))

/-- Python dict lookup (first matching key) on the association-list model. -/
def lookupD : List (String × Nat) → String → Option Nat
  | [], _ => none
  | (k, v) :: rest, w => if k = w then some v else lookupD rest w

/-- Python `w in d` membership test. -/
def hasKey (d : List (String × Nat)) (w : String) : Bool :=
  (lookupD d w).isSome

/-- Python `d[w] = v`: update the existing entry in place, else append. -/
def setD : List (String × Nat) → String → Nat → List (String × Nat)
  | [], w, v => [(w, v)]
  | (k, v0) :: rest, w, v =>
    if k = w then (k, v) :: rest else (k, v0) :: setD rest w v

/-- The key sequence of a Python dict (iteration order). -/
def keysD (d : List (String × Nat)) : List String := d.map Prod.fst

/-- Python `str.strip()`: remove leading and trailing whitespace. -/
def pyStrip (s : String) : String :=
  String.mk (((s.data.dropWhile fun c => isSpace c).reverse.dropWhile
    fun c => isSpace c).reverse)

/-- One line of `_load_russian_dictionary` (lines 34-39):
`word = line.strip(); if word.startswith('-'): d[word[1:]] = 1 else d[word] = 1`. -/
def loadLine (d : List (String × Nat)) (line : String) : List (String × Nat) :=
  match (pyStrip line).data with
  | '-' :: rest => setD d (String.mk rest) 1
  | _ => setD d (pyStrip line) 1

/-- `_load_russian_dictionary` over the file's lines. -/
def load_russian_dictionary (lines : List String) : List (String × Nat) :=
  lines.foldl loadLine []

/-- `buf_dictionary[word] = buf_dictionary.get(word, 0) + 1` (line 52). -/
def bumpD (d : List (String × Nat)) (w : String) : List (String × Nat) :=
  setD d w ((lookupD d w).getD 0 + 1)

/-- The counting loop of `_process_training_data` (lines 47-52) over the
`correct_text` column. -/
def buildFreq (rows : List String) : List (String × Nat) :=
  rows.foldl (fun d s => (tokenize s).foldl bumpD d) []

/-- The drop condition of the filtering loop (lines 58-59), for a word `w`
with count `c` in `buf_dictionary`. -/
def dropCond (base : List (String × Nat)) (w : String) (c : Nat) : Bool :=
  (!hasKey base w && c < 5) || (w.length < 4 && c < 50 && !hasKey base w)

/-- The filtering loop (lines 56-60): copy the dict and pop every key whose
count satisfies `dropCond`.  On a dict (unique keys) this keeps exactly the
entries failing the condition, in order. -/
def filterFreq (base buf : List (String × Nat)) : List (String × Nat) :=
  buf.filter fun p => !dropCond base p.1 p.2

/-- `_process_training_data` (lines 42-63): count, filter, then
`dictionary[''] = 1`. -/
def process_training_data (base : List (String × Nat)) (rows : List String) :
    List (String × Nat) :=
  setD (filterFreq base (buildFreq rows)) "" 1

/-- Classic unit-cost Levenshtein recurrence (insertions, deletions,
substitutions; no transpositions), with a fuel argument so the recursion is
structural and kernel-computable.  `a.length + b.length` fuel always
suffices, so the `0`-fuel fallback with both lists nonempty is unreachable.
Models the external `Levenshtein.distance` call of line 67. -/
def levAux : Nat → List Char → List Char → Nat
  | _, [], b => b.length
  | _, a, [] => a.length
  | fuel + 1, x :: xs, y :: ys =>
    if x = y then levAux fuel xs ys
    else 1 + min (levAux fuel xs (y :: ys)) (min (levAux fuel (x :: xs) ys) (levAux fuel xs ys))
  | 0, _ :: _, _ :: _ => 0

/-- `_levenshtein_distance` (lines 65-67). -/
def lev (a b : String) : Nat := levAux (a.length + b.length) a.data b.data

/-- One iteration of the scan loop of `_find_closest_word` (lines 85-91).
The accumulator is `(min_dist, closest_words)`, with `none` standing for the
initial `float('inf')` (every finite distance compares below it). -/
def scanStep (w : String) (acc : Option Nat × List String) (k : String) :
    Option Nat × List String :=
  let d := lev w k
  match acc with
  | (none, _) => (some d, [k])
  | (some m, cw) =>
    if d < m then (some d, [k])
    else if d = m then (some m, cw ++ [k])
    else (some m, cw)

/-- Python `max(x :: xs, key=f)`: the first element attaining the maximal
`f`-value (later elements replace the current best only on strict
increase). -/
def pyMax (f : String → Nat) (x : String) (xs : List String) : String :=
  xs.foldl (fun best y => if f best < f y then y else best) x

/-- `_find_closest_word` (lines 69-97). -/
def find_closest_word (d : List (String × Nat)) (w : String) : String :=
  if hasKey d w then w
  else
    match (keysD d).foldl (scanStep w) (none, []) with
    | (_, []) => w
    | (_, c :: cs) => pyMax (fun x => (lookupD d x).getD 0) c cs

/-- `correct_sentence` (lines 99-120). -/
def correct_sentence (d : List (String × Nat)) (sentence : String) : String :=
  let words := tokenize sentence
  let corrected := words.foldl
    (fun acc w => if hasKey d w then acc ++ [w] else acc ++ [find_closest_word d w]) []
  String.intercalate " " corrected

/-- The sonority table literal of `__init__` (lines 24-28). -/
def sonorityDefault : List (Char × Char) :=
  [('б', 'п'), ('в', 'ф'), ('г', 'к'), ('д', 'т'), ('ж', 'ш'),
   ('з', 'с'), ('п', 'б'), ('ф', 'в'), ('к', 'г'), ('т', 'д'),
   ('ш', 'ж'), ('с', 'з')]

/-- The corrector's state after `__init__` (lines 9-28). -/
structure SentenceCorrector where
  dict_full : List (String × Nat)
  train_dict : List (String × Nat)
  sonority : List (Char × Char)

/-- `SentenceCorrector.__init__`, given the word-list lines and the
`correct_text` column of the training table (file reading and CSV parsing
are external collaborators). -/
def initCorrector (dictLines : List String) (trainRows : List String) :
    SentenceCorrector :=
  let full := load_russian_dictionary dictLines
  ⟨full, process_training_data full trainRows, sonorityDefault⟩

/-- Method view of `_find_closest_word` on the corrector state. -/
def SentenceCorrector.find_closest (sc : SentenceCorrector) (w : String) : String :=
  find_closest_word sc.train_dict w

/-- Method view of `correct_sentence` on the corrector state. -/
def SentenceCorrector.correct (sc : SentenceCorrector) (s : String) : String :=
  correct_sentence sc.train_dict s

/-! Section: Association-list (Python dict) lemmas -/

theorem lookupD_setD_self (d : List (String × Nat)) (w : String) (v : Nat) :
    lookupD (setD d w v) w = some v := by
  induction d with
  | nil => simp [setD, lookupD]
  | cons p rest ih =>
    obtain ⟨k, v0⟩ := p
    by_cases h : k = w <;> simp [setD, lookupD, h, ih]

theorem lookupD_setD (d : List (String × Nat)) (w x : String) (v : Nat) :
    lookupD (setD d w v) x = if w = x then some v else lookupD d x := by
  induction d with
  | nil => by_cases h : w = x <;> simp [setD, lookupD, h]
  | cons p rest ih =>
    obtain ⟨k, v0⟩ := p
    by_cases h1 : k = w <;> by_cases h2 : w = x <;>
      simp_all [setD, lookupD]

/-! Section: C4: the empty-string sentinel -/

/-- Claim C4: for every training corpus and base vocabulary, the constructed
lexicon maps the empty-string key to frequency exactly 1, unconditionally
and regardless of the filtering outcome; the same holds for the lexicon of
a fully initialized corrector. -/
theorem sentinel_frequency_one (base : List (String × Nat)) (rows : List String)
    (dictLines trainRows : List String) :
    lookupD (process_training_data base rows) "" = some 1 ∧
      lookupD (initCorrector dictLines trainRows).train_dict "" = some 1 :=
  ⟨lookupD_setD_self _ _ _, lookupD_setD_self _ _ _⟩

/-! Section: C5: exact-match shortcut -/

/-- Claim C5: for every lexicon and every token `w` that is a key of the lexicon,
`_find_closest_word` returns `w` unchanged (exact-match shortcut at
distance 0), so resolution is idempotent on lexicon keys. -/
theorem resolve_idempotent_on_keys (d : List (String × Nat)) (w : String)
    (h : hasKey d w = true) : find_closest_word d w = w := by
  simp [find_closest_word, h]

/-- Witness for C5 at a concrete lexicon and key. -/
theorem resolve_idempotent_on_keys_witness :
    hasKey [("хорошо", 10)] "хорошо" = true ∧
      find_closest_word [("хорошо", 10)] "хорошо" = "хорошо" :=
  ⟨by decide, resolve_idempotent_on_keys [("хорошо", 10)] "хорошо" (by decide)⟩

/-! Section: C3: the filtering retention rule -/

/-- Claim C3: the filter drops a token `w` with count `c` exactly when
(`w` is not a base-vocabulary key and `c < 5`) or (`len w < 4` and `c < 50`
and `w` is not a base-vocabulary key), every retained token keeping its
count unchanged; concretely, from counts
`{"стол": 3, "окно": 60, "дом": 5}` with an empty base vocabulary only
`"окно"` survives, with count 60. -/
theorem filter_retention_rule :
    (∀ (base tbl : List (String × Nat)) (w : String) (c : Nat),
      (w, c) ∈ filterFreq base tbl ↔
        (w, c) ∈ tbl ∧
          ¬((hasKey base w = false ∧ c < 5) ∨
            (w.length < 4 ∧ c < 50 ∧ hasKey base w = false))) ∧
      filterFreq [] [("стол", 3), ("окно", 60), ("дом", 5)] = [("окно", 60)] := by
  constructor
  · intro base tbl w c
    by_cases hb : hasKey base w = true <;> by_cases h5 : c < 5 <;>
      by_cases hl : w.length < 4 <;> by_cases h50 : c < 50 <;>
        simp_all [filterFreq, List.mem_filter, dropCond]
  · decide

/-! Section: C9: the sonority table is never consulted -/

/-- Claim C9: resolution and correction never depend on the sonority table: two
correctors identical except for the contents of the sonority map produce
identical outputs of `_find_closest_word` and `correct_sentence` on every
input. -/
theorem sonority_map_never_consulted (c₁ c₂ : SentenceCorrector)
    (hfull : c₁.dict_full = c₂.dict_full)
    (htrain : c₁.train_dict = c₂.train_dict) :
    (∀ w, c₁.find_closest w = c₂.find_closest w) ∧
      ∀ s, c₁.correct s = c₂.correct s := by
  refine ⟨fun w => ?_, fun s => ?_⟩ <;>
    simp [SentenceCorrector.find_closest, SentenceCorrector.correct, htrain]

/-- Witness for C9: two concrete correctors, one with the program's sonority
table and one with an empty one, agree on resolution and correction. -/
theorem sonority_map_never_consulted_witness :
    (SentenceCorrector.mk [] [("да", 2)] sonorityDefault).dict_full =
        (SentenceCorrector.mk [] [("да", 2)] []).dict_full ∧
      (SentenceCorrector.mk [] [("да", 2)] sonorityDefault).train_dict =
        (SentenceCorrector.mk [] [("да", 2)] []).train_dict ∧
      ((∀ w, (SentenceCorrector.mk [] [("да", 2)] sonorityDefault).find_closest w =
            (SentenceCorrector.mk [] [("да", 2)] []).find_closest w) ∧
        ∀ s, (SentenceCorrector.mk [] [("да", 2)] sonorityDefault).correct s =
            (SentenceCorrector.mk [] [("да", 2)] []).correct s) :=
  ⟨rfl, rfl,
    sonority_map_never_consulted (SentenceCorrector.mk [] [("да", 2)] sonorityDefault)
      (SentenceCorrector.mk [] [("да", 2)] []) rfl rfl⟩

/-! Section: C7: structure of `correct_sentence` -/

theorem correct_foldl (d : List (String × Nat)) (ws : List String)
    (a : List String) :
    ws.foldl
        (fun acc w => if hasKey d w then acc ++ [w] else acc ++ [find_closest_word d w]) a
      = a ++ ws.map fun w => if hasKey d w then w else find_closest_word d w := by
  induction ws generalizing a with
  | nil => simp
  | cons x xs ih => by_cases h : hasKey d x = true <;> simp [h, ih]

/-- Claim C7: `correct_sentence` tokenizes its input, keeps lexicon keys as-is,
replaces every other token by its resolution, and rejoins the results with
single-space separators in the original token order; when the input
tokenizes to zero tokens the output is the empty string. -/
theorem correct_sentence_structure (d : List (String × Nat)) (s : String) :
    correct_sentence d s =
        String.intercalate " " ((tokenize s).map fun w =>
          if hasKey d w then w else find_closest_word d w) ∧
      (tokenize s = [] → correct_sentence d s = "") := by
  have hmain : correct_sentence d s =
      String.intercalate " " ((tokenize s).map fun w =>
        if hasKey d w then w else find_closest_word d w) := by
    simp [correct_sentence, correct_foldl]
  refine ⟨hmain, fun hnil => ?_⟩
  rw [hmain, hnil]
  rfl

/-- Witness for C7 at a concrete lexicon and an input that tokenizes to
zero tokens. -/
theorem correct_sentence_structure_witness :
    tokenize "?!." = [] ∧ correct_sentence [("да", 2)] "?!." = "" :=
  ⟨by decide, (correct_sentence_structure [("да", 2)] "?!.").2 (by decide)⟩

/-! Section: C8: the word-list loader (corrected: `strip()` removes leading
whitespace as well) -/

/-- Claim C8 counterexample: on the single line `" а"` (with a leading space) the
loader stores the key `"а"`: the leading whitespace is not preserved, so
the line is not inserted "trailing-trimmed, as-is". -/
theorem loader_leading_whitespace_cex :
    load_russian_dictionary [" а"] = [("а", 1)] ∧
      lookupD (load_russian_dictionary [" а"]) " а" = none :=
  ⟨by decide, by decide⟩

/-- The stored form of one raw word-list line, per the amended C8: strip
leading and trailing whitespace, then drop a single leading `'-'` marker
when present. -/
def cookLine (line : String) : String :=
  match (pyStrip line).data with
  | '-' :: rest => String.mk rest
  | _ => pyStrip line

theorem loadLine_eq_setD (d : List (String × Nat)) (line : String) :
    loadLine d line = setD d (cookLine line) 1 := by
  unfold loadLine cookLine
  rcases h : (pyStrip line).data with _ | ⟨c, rest⟩
  · rfl
  · by_cases hc : c = '-' <;> simp [hc]

/-- Claim C8 (amended): the loader strips leading and trailing whitespace from
each line, drops a single leading `'-'` marker from the stripped line when
present, and the resulting base vocabulary maps exactly the so-obtained
words to 1. -/
theorem loader_amended (lines : List String) (w : String) :
    lookupD (load_russian_dictionary lines) w =
      if w ∈ lines.map cookLine then some 1 else none := by
  suffices h : ∀ d, lookupD (lines.foldl loadLine d) w =
      if w ∈ lines.map cookLine then some 1 else lookupD d w by
    simpa [load_russian_dictionary, lookupD] using h []
  induction lines with
  | nil => simp
  | cons l ls ih =>
    intro d
    simp only [List.foldl_cons, List.map_cons, List.mem_cons]
    rw [loadLine_eq_setD, ih, lookupD_setD]
    by_cases h1 : w ∈ ls.map cookLine <;> by_cases h2 : w = cookLine l <;>
      simp [h1, h2, eq_comm]

/-! Section: The scan loop of `_find_closest_word`: characterization -/

theorem foldl_min_le_init (l : List Nat) (m : Nat) : List.foldl min m l ≤ m := by
  induction l generalizing m with
  | nil => simp
  | cons x xs ih =>
    rw [List.foldl_cons]
    exact le_trans (ih (min m x)) (Nat.min_le_left m x)

theorem foldl_min_le_mem (l : List Nat) (m a : Nat) : a ∈ l → List.foldl min m l ≤ a := by
  induction l generalizing m with
  | nil => intro ha; cases ha
  | cons x xs ih =>
    intro ha
    rw [List.foldl_cons]
    rcases List.mem_cons.mp ha with h | h
    · subst h
      exact le_trans (foldl_min_le_init xs (min m a)) (Nat.min_le_right m a)
    · exact ih (min m x) h

theorem foldl_min_choice (l : List Nat) (m : Nat) :
    List.foldl min m l = m ∨ List.foldl min m l ∈ l := by
  induction l generalizing m with
  | nil => left; rfl
  | cons x xs ih =>
    rw [List.foldl_cons]
    rcases ih (min m x) with h | h
    · rcases Nat.le_total m x with hmx | hmx
      · left; rw [h]; exact Nat.min_eq_left hmx
      · right; rw [h, Nat.min_eq_right hmx]; exact List.mem_cons_self x xs
    · right; exact List.mem_cons_of_mem x h

theorem scan_go (w : String) (ks : List String) (m : Nat) (cw : List String) :
    ks.foldl (scanStep w) (some m, cw) =
      (some (List.foldl min m (ks.map (lev w))),
        (if List.foldl min m (ks.map (lev w)) = m then cw else []) ++
          ks.filter fun k => lev w k == List.foldl min m (ks.map (lev w))) := by
  induction ks generalizing m cw with
  | nil => simp
  | cons k ks ih =>
    have hstep : scanStep w (some m, cw) k =
        if lev w k < m then (some (lev w k), [k])
        else if lev w k = m then (some m, cw ++ [k]) else (some m, cw) := rfl
    rw [List.foldl_cons, hstep, List.map_cons, List.foldl_cons]
    rcases Nat.lt_trichotomy (lev w k) m with hlt | heq | hgt
    · have hmin : min m (lev w k) = lev w k := Nat.min_eq_right (Nat.le_of_lt hlt)
      rw [if_pos hlt, ih, hmin]
      have hA : List.foldl min (lev w k) (ks.map (lev w)) ≤ lev w k :=
        foldl_min_le_init _ _
      have hMne : ¬(List.foldl min (lev w k) (ks.map (lev w)) = m) := by omega
      rw [if_neg hMne, List.filter_cons]
      by_cases h : lev w k = List.foldl min (lev w k) (ks.map (lev w))
      · have hb : (lev w k == List.foldl min (lev w k) (ks.map (lev w))) = true :=
          beq_iff_eq.mpr h
        rw [if_pos h.symm, hb]
        simp
      · have hb : (lev w k == List.foldl min (lev w k) (ks.map (lev w))) = false :=
          beq_eq_false_iff_ne.mpr h
        rw [if_neg fun hc => h hc.symm, hb]
        simp
    · have hmin : min m (lev w k) = m := by rw [heq]; exact Nat.min_self m
      rw [if_neg (by omega), if_pos heq, ih, hmin]
      rw [List.filter_cons]
      by_cases h : List.foldl min m (ks.map (lev w)) = m
      · have hb : (lev w k == List.foldl min m (ks.map (lev w))) = true := by
          rw [heq, h]
          simp
        rw [if_pos h, if_pos h, hb]
        simp
      · have hb : (lev w k == List.foldl min m (ks.map (lev w))) = false := by
          rw [heq]
          exact beq_eq_false_iff_ne.mpr fun hc => h hc.symm
        rw [if_neg h, if_neg h, hb]
        simp
    · have hmin : min m (lev w k) = m := Nat.min_eq_left (Nat.le_of_lt hgt)
      rw [if_neg (by omega), if_neg (by omega), ih, hmin]
      rw [List.filter_cons]
      have hA : List.foldl min m (ks.map (lev w)) ≤ m := foldl_min_le_init _ _
      have hb : (lev w k == List.foldl min m (ks.map (lev w))) = false :=
        beq_eq_false_iff_ne.mpr (by omega)
      rw [hb]
      simp

theorem scan_start (w k : String) (ks : List String) :
    (k :: ks).foldl (scanStep w) (none, []) =
      (some (List.foldl min (lev w k) (ks.map (lev w))),
        (k :: ks).filter fun x => lev w x == List.foldl min (lev w k) (ks.map (lev w))) := by
  have h1 : scanStep w ((none : Option Nat), ([] : List String)) k =
      (some (lev w k), [k]) := rfl
  rw [List.foldl_cons, h1, scan_go, List.filter_cons]
  by_cases h : List.foldl min (lev w k) (ks.map (lev w)) = lev w k
  · rw [if_pos h]
    have hk : (lev w k == List.foldl min (lev w k) (ks.map (lev w))) = true :=
      beq_iff_eq.mpr h.symm
    rw [hk]
    simp
  · rw [if_neg h]
    have hk : (lev w k == List.foldl min (lev w k) (ks.map (lev w))) = false :=
      beq_eq_false_iff_ne.mpr fun hc => h hc.symm
    rw [hk]
    simp

/-! Section: Python `max` over a nonempty list -/

theorem pyMax_head_le (g : String → Nat) (x : String) (xs : List String) :
    g x ≤ g (pyMax g x xs) := by
  induction xs generalizing x with
  | nil => simp [pyMax]
  | cons y ys ih =>
    have hrfl : pyMax g x (y :: ys) = pyMax g (if g x < g y then y else x) ys := rfl
    rw [hrfl]
    refine le_trans ?_ (ih (if g x < g y then y else x))
    by_cases h : g x < g y <;> simp [h]
    omega

theorem pyMax_mem (g : String → Nat) (x : String) (xs : List String) :
    pyMax g x xs ∈ x :: xs := by
  induction xs generalizing x with
  | nil => simp [pyMax]
  | cons y ys ih =>
    have hrfl : pyMax g x (y :: ys) = pyMax g (if g x < g y then y else x) ys := rfl
    rw [hrfl]
    rcases List.mem_cons.mp (ih (if g x < g y then y else x)) with h | h
    · rw [h]
      by_cases hc : g x < g y <;> simp [hc, List.mem_cons]
    · simp [List.mem_cons, h]

theorem pyMax_le (g : String → Nat) (x : String) (xs : List String) (z : String)
    (hz : z ∈ x :: xs) : g z ≤ g (pyMax g x xs) := by
  induction xs generalizing x with
  | nil =>
    rw [List.mem_singleton] at hz
    subst hz
    simp [pyMax]
  | cons y ys ih =>
    have hrfl : pyMax g x (y :: ys) = pyMax g (if g x < g y then y else x) ys := rfl
    rw [hrfl]
    have hx' : g x ≤ g (if g x < g y then y else x) := by
      by_cases h : g x < g y <;> simp [h]; omega
    have hy' : g y ≤ g (if g x < g y then y else x) := by
      by_cases h : g x < g y <;> simp [h]; omega
    rcases List.mem_cons.mp hz with h | h
    · subst h
      exact le_trans hx' (pyMax_head_le g _ ys)
    · rcases List.mem_cons.mp h with h' | h'
      · subst h'
        exact le_trans hy' (pyMax_head_le g _ ys)
      · exact ih (if g x < g y then y else x) (List.mem_cons_of_mem _ h')

/-! Section: Master characterization of `_find_closest_word` on an unknown token -/

theorem find_closest_props (d : List (String × Nat)) (w : String)
    (hw : hasKey d w = false) (k0 : String) (ks : List String)
    (hkeys : keysD d = k0 :: ks) :
    find_closest_word d w ∈ keysD d ∧
      (∀ k ∈ keysD d, lev w (find_closest_word d w) ≤ lev w k) ∧
      (∀ k ∈ keysD d, lev w k = lev w (find_closest_word d w) →
        (lookupD d k).getD 0 ≤ (lookupD d (find_closest_word d w)).getD 0) := by
  have hfun : find_closest_word d w =
      match (keysD d).foldl (scanStep w) (none, []) with
      | (_, []) => w
      | (_, c :: cs) => pyMax (fun x => (lookupD d x).getD 0) c cs := by
    unfold find_closest_word
    rw [hw]
    rfl
  rw [hkeys, scan_start] at hfun
  have hex : ∃ x ∈ k0 :: ks,
      lev w x = List.foldl min (lev w k0) (ks.map (lev w)) := by
    rcases foldl_min_choice (ks.map (lev w)) (lev w k0) with h | h
    · exact ⟨k0, List.mem_cons_self _ _, h.symm⟩
    · rcases List.mem_map.mp h with ⟨x, hx, hfx⟩
      exact ⟨x, List.mem_cons_of_mem _ hx, hfx⟩
  have hne : (k0 :: ks).filter
      (fun x => lev w x == List.foldl min (lev w k0) (ks.map (lev w))) ≠ [] := by
    rcases hex with ⟨x, hxmem, hxval⟩
    intro hnil
    have := List.filter_eq_nil_iff.mp hnil x hxmem
    rw [beq_iff_eq] at this
    exact this hxval
  rcases hF : (k0 :: ks).filter
      (fun x => lev w x == List.foldl min (lev w k0) (ks.map (lev w))) with _ | ⟨c, cs⟩
  · exact absurd hF hne
  rw [hF] at hfun
  have hres : find_closest_word d w = pyMax (fun x => (lookupD d x).getD 0) c cs := hfun
  have hresF : find_closest_word d w ∈ (k0 :: ks).filter
      (fun x => lev w x == List.foldl min (lev w k0) (ks.map (lev w))) := by
    rw [hF, hres]
    exact pyMax_mem _ c cs
  have hresmem : find_closest_word d w ∈ k0 :: ks :=
    List.mem_of_mem_filter hresF
  have hresdist : lev w (find_closest_word d w) =
      List.foldl min (lev w k0) (ks.map (lev w)) :=
    beq_iff_eq.mp (List.mem_filter.mp hresF).2
  have hmin : ∀ k ∈ k0 :: ks,
      List.foldl min (lev w k0) (ks.map (lev w)) ≤ lev w k := by
    intro k hk
    rcases List.mem_cons.mp hk with h | h
    · subst h; exact foldl_min_le_init _ _
    · exact foldl_min_le_mem _ _ _ (List.mem_map_of_mem (lev w) h)
  refine ⟨by rw [hkeys]; exact hresmem, ?_, ?_⟩
  · intro k hk
    rw [hkeys] at hk
    rw [hresdist]
    exact hmin k hk
  · intro k hk hdist
    rw [hkeys] at hk
    have hkF : k ∈ (k0 :: ks).filter
        (fun x => lev w x == List.foldl min (lev w k0) (ks.map (lev w))) := by
      apply List.mem_filter.mpr
      refine ⟨hk, ?_⟩
      rw [beq_iff_eq, hdist, hresdist]
    rw [hF] at hkF
    rw [hres]
    exact pyMax_le (fun x => (lookupD d x).getD 0) c cs k hkF

theorem mem_keysD_of_hasKey (d : List (String × Nat)) (w : String) :
    hasKey d w = true → w ∈ keysD d := by
  induction d with
  | nil => simp [hasKey, lookupD, keysD]
  | cons p rest ih =>
    obtain ⟨k, v⟩ := p
    by_cases h : k = w <;> simp_all [hasKey, lookupD, keysD]

/-! Section: C1: distance-minimal resolution -/

/-- Claim C1: for every non-empty lexicon and every token `w` that is not a key,
`_find_closest_word` returns a lexicon key whose Levenshtein distance
(unit-cost insertions, deletions, substitutions) from `w` equals the
minimum of that distance over all lexicon keys: no key at strictly larger
distance than some other key is ever returned. -/
theorem resolve_min_distance (d : List (String × Nat)) (w : String)
    (hne : keysD d ≠ []) (hw : hasKey d w = false) :
    find_closest_word d w ∈ keysD d ∧
      ∀ k ∈ keysD d, lev w (find_closest_word d w) ≤ lev w k := by
  rcases hk : keysD d with _ | ⟨k0, ks⟩
  · exact absurd hk hne
  · obtain ⟨h1, h2, _⟩ := find_closest_props d w hw k0 ks hk
    rw [hk] at h1 h2
    exact ⟨h1, h2⟩

/-- Witness for C1 at a concrete lexicon and unknown token. -/
theorem resolve_min_distance_witness :
    keysD [("хорошо", 10), ("плохо", 5)] ≠ [] ∧
      hasKey [("хорошо", 10), ("плохо", 5)] "харашо" = false ∧
      find_closest_word [("хорошо", 10), ("плохо", 5)] "харашо" ∈
        keysD [("хорошо", 10), ("плохо", 5)] :=
  ⟨by decide, by decide,
    (resolve_min_distance [("хорошо", 10), ("плохо", 5)] "харашо"
      (by decide) (by decide)).1⟩

/-! Section: C2: frequency tie-break -/

/-- Claim C2: among the keys achieving the minimal distance to an unknown token
`w`, `_find_closest_word` returns a key of maximal frequency (resolution is
a function of the lexicon, hence deterministic); concretely, with the
lexicon mapping `"хорошо"` to 10 and `"плохо"` to 5, `"харашо"` resolves to
`"хорошо"`. -/
theorem resolve_frequency_tiebreak (d : List (String × Nat)) (w : String)
    (hw : hasKey d w = false) :
    (∀ k ∈ keysD d, lev w k = lev w (find_closest_word d w) →
        (lookupD d k).getD 0 ≤ (lookupD d (find_closest_word d w)).getD 0) ∧
      find_closest_word [("хорошо", 10), ("плохо", 5)] "харашо" = "хорошо" := by
  constructor
  · rcases hk : keysD d with _ | ⟨k0, ks⟩
    · intro k hkmem
      exact absurd hkmem (List.not_mem_nil k)
    · have h := (find_closest_props d w hw k0 ks hk).2.2
      rw [hk] at h
      exact h
  · decide

/-- Witness for C2 at the concrete lexicon of the claim. -/
theorem resolve_frequency_tiebreak_witness :
    hasKey [("хорошо", 10), ("плохо", 5)] "харашо" = false ∧
      find_closest_word [("хорошо", 10), ("плохо", 5)] "харашо" = "хорошо" :=
  ⟨by decide,
    (resolve_frequency_tiebreak [("хорошо", 10), ("плохо", 5)] "харашо" (by decide)).2⟩

/-! Section: C10: resolution always lands in the lexicon; empty-string results -/

/-- Claim C10: for a non-empty lexicon, `_find_closest_word` always returns a
lexicon key — `w` itself when `w` is a key, some existing key otherwise;
since the empty-string sentinel is a key, resolution can return the empty
string, so a corrected sentence can contain consecutive space separators
(concretely, `"яя б яя"` corrects to `"яя  яя"` under the lexicon
`{"яя": 1, "": 1}`). -/
theorem resolve_returns_lexicon_key (d : List (String × Nat)) (w : String)
    (hne : keysD d ≠ []) :
    find_closest_word d w ∈ keysD d ∧
      (hasKey d w = true → find_closest_word d w = w) ∧
      correct_sentence [("яя", 1), ("", 1)] "яя б яя" = "яя  яя" := by
  refine ⟨?_, fun hw => by simp [find_closest_word, hw], by decide⟩
  by_cases hw : hasKey d w = true
  · have : find_closest_word d w = w := by simp [find_closest_word, hw]
    rw [this]
    exact mem_keysD_of_hasKey d w hw
  · have hw' : hasKey d w = false := by simpa using hw
    rcases hk : keysD d with _ | ⟨k0, ks⟩
    · exact absurd hk hne
    · have h := (find_closest_props d w hw' k0 ks hk).1
      rw [hk] at h
      exact h

/-- Witness for C10 at a concrete one-key lexicon. -/
theorem resolve_returns_lexicon_key_witness :
    keysD [("", 1)] ≠ [] ∧ find_closest_word [("", 1)] "б" ∈ keysD [("", 1)] :=
  ⟨by decide, (resolve_returns_lexicon_key [("", 1)] "б" (by decide)).1⟩

/-! Section: C6: the tokenizer's noise class (corrected: the regex fragment
`$--` is a character range, adding `% & ( ) * +` to the class) -/

/-- The noise class exactly as claim C6 words it: ASCII digits 0-9, ASCII
Latin letters a-z, and the punctuation set `! @ # $ - , . ? ¬ ] [ ' "`. -/
def claimNoiseChars : List Char :=
  ['9', '8', '7', '6', '5', '4', '3', '2', '1', '0',
   'a', 'b', 'c', 'd', 'e', 'f', 'g', 'h', 'i', 'j', 'k', 'l', 'm',
   'n', 'o', 'p', 'q', 'r', 's', 't', 'u', 'v', 'w', 'x', 'y', 'z',
   '!', '@', '#', '$', '-', ',', '.', '?', '¬', ']', '[', '\'', '\"']

/-- Noise predicate following the claim's words. -/
def isNoiseClaim (c : Char) : Bool :=
  decide (c ∈ claimNoiseChars)

/-- Tokenization as claim C6 words it. -/
def tokenizeClaim (s : String) : List String :=
  pySplit ((s.data.map lowerChar).map fun c => if isNoiseClaim c then ' ' else c)

/-- Claim C6 counterexample: in the regex character class the fragment `$--` is a
range (codepoints 36-45), so the code treats `'%'` as noise although the
claim's noise class excludes it: on `"ж%ж"` the code produces two tokens
where the claim's tokenization produces one. -/
theorem tokenize_noise_class_cex :
    tokenize "ж%ж" = ["ж", "ж"] ∧ tokenizeClaim "ж%ж" = ["ж%ж"] ∧
      isNoise '%' = true ∧ isNoiseClaim '%' = false :=
  ⟨by decide, by decide, by decide, by decide⟩

/-- The noise class per the amended C6: ASCII digits 0-9, ASCII Latin
letters a-z, and the punctuation set
`! @ # $ % & ' ( ) * + , - . ? ¬ ] [ "` — the characters with codepoints 36
through 45 enter through the `$--` range of the regex. -/
def amendedNoiseChars : List Char :=
  ['9', '8', '7', '6', '5', '4', '3', '2', '1', '0',
   'a', 'b', 'c', 'd', 'e', 'f', 'g', 'h', 'i', 'j', 'k', 'l', 'm',
   'n', 'o', 'p', 'q', 'r', 's', 't', 'u', 'v', 'w', 'x', 'y', 'z',
   '!', '@', '#', '$', '%', '&', '\'', '(', ')', '*', '+', ',', '-',
   '.', '?', '¬', ']', '[', '\"']

/-- Noise predicate following the amended claim's words. -/
def isNoiseAmended (c : Char) : Bool :=
  decide (c ∈ amendedNoiseChars)

theorem char_of_toNat {c d : Char} (h : c.toNat = d.toNat) : c = d := by
  apply Char.ext
  apply UInt32.ext
  simpa [Char.toNat, UInt32.toNat] using h

theorem dollar_range_enum (c : Char) (h : '$' ≤ c ∧ c ≤ '-') :
    c ∈ ['$', '%', '&', '\'', '(', ')', '*', '+', ',', '-'] := by
  obtain ⟨h1, h2⟩ := h
  rw [Char.le_def] at h1 h2
  have h1' : 36 ≤ c.toNat := h1
  have h2' : c.toNat ≤ 45 := h2
  interval_cases h : c.toNat
  · simp [char_of_toNat (d := '$') h]
  · simp [char_of_toNat (d := '%') h]
  · simp [char_of_toNat (d := '&') h]
  · simp [char_of_toNat (d := '\'') h]
  · simp [char_of_toNat (d := '(') h]
  · simp [char_of_toNat (d := ')') h]
  · simp [char_of_toNat (d := '*') h]
  · simp [char_of_toNat (d := '+') h]
  · simp [char_of_toNat (d := ',') h]
  · simp [char_of_toNat (d := '-') h]

theorem isNoise_eq_isNoiseAmended (c : Char) : isNoise c = isNoiseAmended c := by
  rw [isNoise, isNoiseAmended, decide_eq_decide]
  constructor
  · rintro (hmem | hrange)
    · fin_cases hmem <;> decide
    · have := dollar_range_enum c hrange
      fin_cases this <;> decide
  · intro hmem
    fin_cases hmem <;> decide

/-- Claim C6 (amended): tokenization lowercases the raw string, replaces each
character of exactly the amended noise class — ASCII digits, ASCII Latin
letters a-z, and `! @ # $ % & ' ( ) * + , - . ? ¬ ] [ "` — by a single
space, leaving every other character unchanged, and splits on whitespace
runs discarding empty fragments. -/
theorem tokenize_noise_class_amended :
    (∀ c, isNoise c = isNoiseAmended c) ∧
      ∀ s, tokenize s =
        pySplit ((s.data.map lowerChar).map fun c =>
          if isNoiseAmended c then ' ' else c) := by
  refine ⟨isNoise_eq_isNoiseAmended, fun s => ?_⟩
  unfold tokenize
  simp only [isNoise_eq_isNoiseAmended]

end SentenceCorrection
